import Mathlib

/-!
Verification development for the Chunk-Extract-Consolidate pipeline of
src/scripts/extract-youtube-moments-v2.py.

The Python functions are shallowly embedded over exact rationals: Python
floats become rationals, Python lists become Lean lists, the moment
dictionaries become a structure with optional fields, and the three places
where the script talks to the network (moment extraction, embeddings,
reranking) become explicit outcome parameters, so every local code path of
the script is a total, executable Lean function. The Python string
primitives the script uses (strip, lower, split, substring test) are
modelled by structural recursion over the character list of a string so
that every definition evaluates by kernel reduction on concrete inputs.
-/

namespace Capless

/- The rational arithmetic operations are shipped irreducible for elaborator
performance; concrete evaluation of the embedded functions needs them to
unfold, so they are locally restored to the normal reducibility setting. -/
attribute [local semireducible] Rat.add Rat.sub Rat.mul Rat.inv Rat.ofScientific

/-- A caption, exactly the source's tuple shape: (start_time, end_time, text). -/
abbrev Caption := ℚ × ℚ × String

/-- Decidable equality for exception results, so parser outcomes can be
checked on concrete inputs. -/
instance exceptDecEq {ε α : Type} [DecidableEq ε] [DecidableEq α] :
    DecidableEq (Except ε α)
  | .error a, .error b =>
    if h : a = b then isTrue (by rw [h]) else isFalse (by simp [h])
  | .error _, .ok _ => isFalse (by simp)
  | .ok _, .error _ => isFalse (by simp)
  | .ok a, .ok b =>
    if h : a = b then isTrue (by rw [h]) else isFalse (by simp [h])

/-! ### Python string and number primitives used by the script -/

/-- Occurrence of one character list as a contiguous segment of another;
this is the semantics of the Python substring operator. -/
def subOccurs (needle : List Char) : List Char → Bool
  | [] => needle.isEmpty
  | c :: t => needle.isPrefixOf (c :: t) || subOccurs needle t

/-- The Python substring test written as an operator on strings. -/
def pyIn (needle hay : String) : Bool :=
  subOccurs needle.data hay.data

/-- Python str.strip(): remove leading and trailing whitespace. -/
def pyStrip (s : String) : String :=
  String.mk (((s.data.dropWhile fun c => c.isWhitespace).reverse.dropWhile
    fun c => c.isWhitespace).reverse)

/-- Python str.lower(). -/
def pyLower (s : String) : String :=
  String.mk (s.data.map Char.toLower)

/-- Python string slicing from the left, s[:n]. -/
def pyTake (s : String) (n : Nat) : String :=
  String.mk (s.data.take n)

/-- Splitting worker for Python str.split(sep): scan left to right, cutting
at each leftmost occurrence of the separator. The budget argument, one more
than the character count, only makes the recursion structural. -/
def pySplitOnAux (sep : List Char) : Nat → List Char → List (List Char)
  | 0, cs => [cs]
  | budget + 1, cs =>
    if sep.isPrefixOf cs ∧ sep ≠ [] then
      [] :: pySplitOnAux sep budget (cs.drop sep.length)
    else
      match cs with
      | [] => [[]]
      | c :: t =>
        match pySplitOnAux sep budget t with
        | [] => [[c]]
        | w :: rest => (c :: w) :: rest

/-- Python str.split(sep) for a non-empty separator. -/
def pySplitOn (s sep : String) : List String :=
  (pySplitOnAux sep.data (s.data.length + 1) s.data).map String.mk

/-- Splitting worker for Python str.split() with no separator: cut at every
whitespace character (empty pieces are discarded by the caller). -/
def splitWsAux : List Char → List (List Char)
  | [] => [[]]
  | c :: t =>
    let r := splitWsAux t
    if c.isWhitespace then [] :: r
    else
      match r with
      | [] => [[c]]
      | w :: rest => (c :: w) :: rest

/-- Python str.split() with no separator: split on whitespace runs, dropping
empty pieces. -/
def pySplitWs (s : String) : List String :=
  ((splitWsAux s.data).filter fun w => w ≠ []).map String.mk

/-- The whitespace normalisation idiom of the script: join of split. -/
def normalizeWs (s : String) : String :=
  " ".intercalate (pySplitWs s)

/-- Numeric value of a run of decimal digits. -/
def digitsVal (ds : List Char) : ℕ :=
  ds.foldl (fun a c => a * 10 + (c.toNat - 48)) 0

/-- Model of the Python float() constructor on decimal notation: optional
surrounding whitespace, optional sign, a mantissa holding at least one
digit, and an optional decimal exponent. Returns none where float() raises
ValueError. (The textual forms inf and nan have no rational value and never
occur in timestamps; they are outside this model.) -/
def pyFloat (s : String) : Option ℚ :=
  let cs := (pyStrip s).data
  let sgncs : ℚ × List Char :=
    match cs with
    | '+' :: t => (1, t)
    | '-' :: t => (-1, t)
    | _ => (1, cs)
  let ip := sgncs.2.takeWhile fun c => c.isDigit
  let r1 := sgncs.2.drop ip.length
  let fpr2 : List Char × List Char :=
    match r1 with
    | '.' :: t => (t.takeWhile fun c => c.isDigit, t.drop (t.takeWhile fun c => c.isDigit).length)
    | _ => ([], r1)
  let fp := fpr2.1
  if ip.isEmpty && fp.isEmpty then none
  else
    let mant : ℚ := sgncs.1 * ((digitsVal ip : ℚ) + (digitsVal fp : ℚ) / (10 ^ fp.length))
    match fpr2.2 with
    | [] => some mant
    | c :: t =>
      if c = 'e' ∨ c = 'E' then
        let esgnt : Int × List Char :=
          match t with
          | '+' :: u => (1, u)
          | '-' :: u => (-1, u)
          | _ => (1, t)
        let ed := esgnt.2.takeWhile fun ch => ch.isDigit
        if ed.isEmpty ∨ esgnt.2.drop ed.length ≠ [] then none
        else some (mant * (10 : ℚ) ^ (esgnt.1 * (digitsVal ed : Int)))
      else none

/-- Lift pyFloat to the exception monad: a failed conversion is Python's
ValueError. -/
def toFloatE (s : String) : Except String ℚ :=
  match pyFloat s with
  | some v => .ok v
  | none => .error "ValueError"

/-- Floor of a rational as an integer (num and den are coprime with den
positive, so integer floor division of num by den is the floor). -/
def ratFloor (q : ℚ) : Int :=
  Int.fdiv q.num q.den

/-- Python float floor-mod, as used by the script's timestamp formatting. -/
def pyMod (a b : ℚ) : ℚ := a - b * (ratFloor (a / b) : ℚ)

/-- Two-digit zero padding of the f-string 02d format. -/
def pad2 (n : Int) : String :=
  if 0 ≤ n ∧ n < 10 then "0" ++ toString n else toString n

/-! ### parse_timestamp / format_timestamp -/

/-- parse_timestamp: colon-split the stripped string; three fields are
hours:minutes:seconds, two fields are minutes:seconds with hours zero, any
other field count returns 0.0 without touching float(); a field that
float() rejects raises ValueError, which the error value records. -/
def parse_timestamp (timestamp_str : String) : Except String ℚ :=
  let parts := pySplitOn (pyStrip timestamp_str) ":"
  match parts with
  | [h, m, s] => do
    let hv ← toFloatE h
    let mv ← toFloatE m
    let sv ← toFloatE s
    .ok (hv * 3600 + mv * 60 + sv)
  | [m, s] => do
    let mv ← toFloatE m
    let sv ← toFloatE s
    .ok ((0 : ℚ) * 3600 + mv * 60 + sv)
  | _ => .ok 0

/-- format_timestamp: seconds to HH:MM:SS with the int(// and %) floor
arithmetic of the source. -/
def format_timestamp (seconds : ℚ) : String :=
  let hours : Int := ratFloor (seconds / 3600)
  let minutes : Int := ratFloor (pyMod seconds 3600 / 60)
  let secs : Int := ratFloor (pyMod seconds 60)
  pad2 hours ++ ":" ++ pad2 minutes ++ ":" ++ pad2 secs

/-! ### parse_vtt_with_timestamps -/

/-- The inner while loop of parse_vtt_with_timestamps: consume stripped text
lines until a blank line, a line containing the arrow separator, or the end
of input; return the collected text lines and the unconsumed remainder. -/
def consumeTextLines : List String → List String × List String
  | [] => ([], [])
  | l :: t =>
    if pyStrip l ≠ "" ∧ ¬ pyIn "-->" l then
      let r := consumeTextLines t
      (pyStrip l :: r.1, r.2)
    else ([], l :: t)

theorem consumeTextLines_snd_length :
    ∀ ls : List String, (consumeTextLines ls).2.length ≤ ls.length
  | [] => Nat.le_refl _
  | l :: t => by
    unfold consumeTextLines
    by_cases h : pyStrip l ≠ "" ∧ ¬ pyIn "-->" l
    · simp only [if_pos h]
      exact Nat.le_succ_of_le (consumeTextLines_snd_length t)
    · simp only [if_neg h]
      exact Nat.le_refl _

/-- The outer while loop of parse_vtt_with_timestamps over the split lines.
A line whose stripped form contains the arrow separator starts a caption
block: its left part feeds parse_timestamp, the first whitespace-token of
its right part feeds parse_timestamp (an empty right part is Python's
IndexError), the following text lines are joined, empty-text blocks are
dropped, and the index increment at the bottom of the loop skips one
further line. Any raised error aborts the whole parse, as in the source.
The loop advances at least one line per iteration, so the budget argument
(the line count at top level) only makes the recursion structural. -/
def parseLoop : Nat → List String → Except String (List Caption)
  | 0, _ => .ok []
  | _ + 1, [] => .ok []
  | budget + 1, l :: rest =>
    if pyIn "-->" (pyStrip l) then
      let timestamp_parts := pySplitOn (pyStrip l) "-->"
      match parse_timestamp (timestamp_parts.getD 0 "") with
      | .error e => .error e
      | .ok start_time =>
        match pySplitWs (pyStrip (timestamp_parts.getD 1 "")) with
        | [] => .error "IndexError"
        | w :: _ =>
          match parse_timestamp w with
          | .error e => .error e
          | .ok end_time =>
            let consumed := consumeTextLines rest
            let text := " ".intercalate consumed.1
            match parseLoop budget consumed.2.tail with
            | .error e => .error e
            | .ok caps =>
              .ok (if text ≠ "" then (start_time, end_time, text) :: caps else caps)
    else parseLoop budget rest

/-- parse_vtt_with_timestamps: split the content on newlines and run the
caption block loop; the error value records the exception the source would
raise. -/
def parse_vtt_with_timestamps (vtt_content : String) : Except String (List Caption) :=
  let lines := pySplitOn vtt_content "\n"
  parseLoop lines.length lines

/-! ### find_speaker_change -/

/-- The candidate list built by find_speaker_change: for each adjacent
caption pair, keep (end, pause) when the caption end is within the window
of the target and the pause to the next caption start exceeds 3 seconds. -/
def speakerChangeCandidates (captions : List Caption) (target_time window : ℚ) : List (ℚ × ℚ) :=
  (captions.zip captions.tail).filterMap fun p =>
    let e := p.1.2.1
    if |e - target_time| ≤ window then
      let pause := p.2.1 - e
      if pause > 3 then some (e, pause) else none
    else none

/-- Lexicographic order on rational pairs: the semantics of Python tuple
comparison used for the sort keys. -/
def pairLex (a b : ℚ × ℚ) : Prop :=
  a.1 < b.1 ∨ (a.1 = b.1 ∧ a.2 ≤ b.2)

instance (a b : ℚ × ℚ) : Decidable (pairLex a b) := by
  unfold pairLex
  exact inferInstance

/-- The sort key of find_speaker_change: (distance to target, negated
pause); ascending order on this key is closest-to-target first, largest
pause on distance ties. -/
def fscKey (target_time : ℚ) (c : ℚ × ℚ) : ℚ × ℚ :=
  (|c.1 - target_time|, -c.2)

/-- find_speaker_change: return the target time when no candidate gap
qualifies, otherwise the end time of the first candidate after the stable
ascending sort by (distance to target, negated pause). Python list.sort is
a stable sort by the key; insertionSort over the induced total preorder
computes exactly that list. -/
def find_speaker_change (captions : List Caption) (target_time window : ℚ) : ℚ :=
  let candidates := speakerChangeCandidates captions target_time window
  match candidates.insertionSort
      (fun a b => pairLex (fscKey target_time a) (fscKey target_time b)) with
  | [] => target_time
  | c :: _ => c.1

/-- Modelled from the spec: the selection rule as the spec words it, for
refinement comparison only — among the same candidates pick the gap with
the largest pause, breaking ties by proximity to the target. -/
def spec_break_selection (captions : List Caption) (target_time window : ℚ) : ℚ :=
  let candidates := speakerChangeCandidates captions target_time window
  match candidates.insertionSort
      (fun a b => pairLex (-a.2, |a.1 - target_time|) (-b.2, |b.1 - target_time|)) with
  | [] => target_time
  | c :: _ => c.1

/-! ### chunk_with_overlap -/

/-- One chunk of the transcript: the metadata dictionary built by
chunk_with_overlap together with the chunk text it is paired with. -/
structure Chunk where
  chunk_id : Nat
  start_time : ℚ
  end_time : ℚ
  duration : ℚ
  caption_count : Nat
  overlap_with_next : Option (ℚ × ℚ)
  captions : List Caption
  text : String
deriving DecidableEq, Repr

/-- The end time of the last caption, the source's captions[-1][1]. -/
def lastEnd (captions : List Caption) : ℚ :=
  (captions.getLastD (0, 0, "")).2.1

/-- The chunk end chosen for one iteration: the natural break near the
target end while the target is strictly before the session end, the
session end otherwise. -/
def actualEnd (captions : List Caption) (chunk_duration current_start : ℚ) : ℚ :=
  let max_time := lastEnd captions
  let target_end := current_start + chunk_duration
  if target_end < max_time then find_speaker_change captions target_end 180 else max_time

/-- Result of one iteration of the chunking while loop. -/
structure StepResult where
  emitted : Option Chunk
  halt : Bool
  next_start : ℚ
  next_id : Nat
deriving Repr

/-- One iteration of the chunk_with_overlap loop body: gather the captions
whose start lies in the half-open window up to the chosen end, emit a chunk
only when that set is non-empty, and report the loop-exit test and the next
start position. -/
def chunkStep (captions : List Caption) (chunk_duration overlap_duration current_start : ℚ)
    (chunk_id : Nat) : StepResult :=
  let max_time := lastEnd captions
  let actual_end := actualEnd captions chunk_duration current_start
  let chunk_captions := captions.filter fun c => decide (current_start ≤ c.1 ∧ c.1 < actual_end)
  if chunk_captions = [] then
    { emitted := none
      halt := decide (actual_end ≥ max_time)
      next_start := actual_end - overlap_duration
      next_id := chunk_id }
  else
    { emitted := some
        { chunk_id := chunk_id
          start_time := current_start
          end_time := actual_end
          duration := actual_end - current_start
          caption_count := chunk_captions.length
          overlap_with_next :=
            if actual_end < max_time then some (max 0 (actual_end - overlap_duration), actual_end)
            else none
          captions := chunk_captions
          text := " ".intercalate (chunk_captions.map fun c => c.2.2) }
      halt := decide (actual_end ≥ max_time)
      next_start := actual_end - overlap_duration
      next_id := chunk_id + 1 }

/-- The chunking while loop, with an explicit iteration budget standing for
the unbounded Python loop (every claim is settled at a budget large enough
for the loop to run to completion). -/
def chunkLoop (captions : List Caption) (chunk_duration overlap_duration : ℚ) :
    Nat → ℚ → Nat → List Chunk
  | 0, _, _ => []
  | fuel + 1, current_start, chunk_id =>
    if current_start < lastEnd captions then
      let r := chunkStep captions chunk_duration overlap_duration current_start chunk_id
      r.emitted.toList ++
        (if r.halt then []
         else chunkLoop captions chunk_duration overlap_duration fuel r.next_start r.next_id)
    else []

/-- chunk_with_overlap: an empty caption list yields no chunks, otherwise
run the loop from start position 0. -/
def chunk_with_overlap (captions : List Caption) (chunk_duration overlap_duration : ℚ)
    (fuel : Nat) : List Chunk :=
  if captions = [] then [] else chunkLoop captions chunk_duration overlap_duration fuel 0 0

/-! ### extract_exact_timestamp -/

/-- The normalised lower-cased concatenation of a caption window's text. -/
def windowText (caps : List Caption) : String :=
  normalizeWs (" ".intercalate (caps.map fun c => pyLower c.2.2))

/-- The inner loop of extract_exact_timestamp at one starting caption: try
window sizes one up to ten (bounded by the captions remaining) and return
the first window whose normalised text contains the quote or is contained
in it, as the (start of first, end of last) span. -/
def findWindowAt (normalized_quote : String) (caps : List Caption) : Option (ℚ × ℚ) :=
  (List.range (min 10 caps.length)).findSome? fun j =>
    let w := caps.take (j + 1)
    let wt := windowText w
    if pyIn normalized_quote wt || pyIn wt normalized_quote then
      some ((w.headD (0, 0, "")).1, (w.getLastD (0, 0, "")).2.1)
    else none

/-- The outer loop of extract_exact_timestamp: scan starting captions from
the chunk start, returning the first matching window. -/
def findWindow (normalized_quote : String) : List Caption → Option (ℚ × ℚ)
  | [] => none
  | c :: rest =>
    match findWindowAt normalized_quote (c :: rest) with
    | some r => some r
    | none => findWindow normalized_quote rest

/-- extract_exact_timestamp: normalise the quote, scan caption windows, and
format the matched span; when no window matches, fall back to the formatted
span from the chunk start to sixty seconds past it. -/
def extract_exact_timestamp (quote : String) (chunk_captions : List Caption)
    (chunk_start_time : ℚ) : String × String :=
  let normalized_quote := normalizeWs (pyLower quote)
  match findWindow normalized_quote chunk_captions with
  | some se => (format_timestamp se.1, format_timestamp se.2)
  | none => (format_timestamp chunk_start_time, format_timestamp (chunk_start_time + 60))

/-! ### Candidate moments -/

/-- A candidate moment: the moment dictionary of the script, with the
fields that only some stages fill in held as options. -/
structure Moment where
  quote : String
  speaker : Option String := none
  why_viral : Option String := none
  viral_score : Option ℚ := none
  category : Option String := none
  title : Option String := none
  timestamp_start : Option String := none
  timestamp_end : Option String := none
  source_chunk_id : Option Nat := none
  is_in_overlap_region : Bool := false
  initial_score : Option ℚ := none
  final_score : Option ℚ := none
  ranking_reason : Option String := none
  global_ranking : Option Nat := none
deriving DecidableEq, Repr, Inhabited

/-- The moment's viral score with the default 7.0 the script supplies for a
missing score. -/
def viral_score_d (m : Moment) : ℚ :=
  m.viral_score.getD 7

/-! ### consolidate_moments step 1: exact overlap-duplicate removal -/

/-- The normalised quote key of step 1: lower-case then strip. -/
def quote_key (m : Moment) : String :=
  pyStrip (pyLower m.quote)

/-- The state of the step-1 loop: the key-to-position table, the kept
moments, and the duplicate counter. -/
structure DedupState where
  seen_quotes : List (String × Nat)
  unique_moments : List Moment
  overlap_duplicates : Nat
deriving Repr

/-- One iteration of the step-1 loop: an unseen key appends the moment and
records its position; a seen key counts a duplicate and overwrites the
kept moment at the recorded position exactly when the new moment is not in
an overlap region. -/
def remove_exact_duplicates_step (st : DedupState) (moment : Moment) : DedupState :=
  let key := quote_key moment
  match List.lookup key st.seen_quotes with
  | some idx =>
    if moment.is_in_overlap_region then
      { st with overlap_duplicates := st.overlap_duplicates + 1 }
    else
      { st with unique_moments := st.unique_moments.set idx moment
                overlap_duplicates := st.overlap_duplicates + 1 }
  | none =>
    { st with seen_quotes := st.seen_quotes ++ [(key, st.unique_moments.length)]
              unique_moments := st.unique_moments ++ [moment] }

/-- Step 1 of consolidate_moments over the whole candidate list. -/
def remove_exact_duplicates (all_chunks_moments : List Moment) : DedupState :=
  all_chunks_moments.foldl remove_exact_duplicates_step ⟨[], [], 0⟩

/-! ### semantic_deduplication -/

/-- One recorded deduplication decision. -/
structure DedupDecision where
  kept_index : Nat
  kept_quote : String
  removed_index : Nat
  removed_quote : String
  similarity : ℚ
  reason : String
deriving DecidableEq, Repr

/-- semantic_deduplication. The embedding call is a network effect, so its
outcome is a parameter: none is the exhausted-retries failure of
generate_embeddings, some gives the per-quote vectors. The floating cosine
similarity is real-valued, so the comparison loop is parameterised by the
similarity function; no claim depends on its numeric values. An empty
moment list and a failed embedding call both return before the comparison
loop, as in the source. -/
def semantic_deduplication (sim : List ℚ → List ℚ → ℚ) (threshold : ℚ)
    (embeddings : Option (List (List ℚ))) (moments : List Moment) :
    List Moment × List DedupDecision :=
  if moments = [] then ([], [])
  else
    match embeddings with
    | none => (moments, [])
    | some embs =>
      let n := moments.length
      let final := (List.range n).foldl
        (fun (st : List Moment × List Nat × List DedupDecision) i =>
          if st.2.1.contains i then st
          else
            let unique := st.1 ++ [moments.getD i default]
            let inner := (List.range' (i + 1) (n - (i + 1))).foldl
              (fun (st2 : List Nat × List DedupDecision) j =>
                if st2.1.contains j then st2
                else
                  let similarity := sim (embs.getD i []) (embs.getD j [])
                  if similarity > threshold then
                    (st2.1 ++ [j],
                     st2.2 ++ [{ kept_index := i
                                 kept_quote := pyTake (moments.getD i default).quote 100
                                 removed_index := j
                                 removed_quote := pyTake (moments.getD j default).quote 100
                                 similarity := similarity
                                 reason := "semantic_similarity" }])
                  else st2)
              (st.2.1, st.2.2)
            (unique, inner.1, inner.2))
        ([], [], [])
      (final.1, final.2.2)

/-! ### global_reranking -/

/-- One entry of the external ranker's response. -/
structure RankInfo where
  original_index : Int
  final_score : Option ℚ := none
  ranking_reason : Option String := none
deriving DecidableEq, Repr

/-- Outcome of the reranking network call: the three failure paths of the
retry loop (rate limited on every attempt, a non-200 status, an exception
on the final attempt), or a parsed ranked list. -/
inductive RerankOutcome where
  | rateLimitedAll : RerankOutcome
  | apiError : RerankOutcome
  | requestException : RerankOutcome
  | ok : List RankInfo → RerankOutcome

/-- The descending-score comparison of the reranking fallback. -/
def scoreDesc (a b : Moment) : Prop :=
  viral_score_d b ≤ viral_score_d a

instance (a b : Moment) : Decidable (scoreDesc a b) := by
  unfold scoreDesc
  exact inferInstance

/-- The fallback of every reranking failure path: Python sorted with the
score key and reverse=True, a stable descending sort by the defaulted
viral score; insertionSort over the induced total preorder computes
exactly that list. -/
def fallback_sort (moments : List Moment) : List Moment :=
  moments.insertionSort scoreDesc

/-- global_reranking: empty input returns empty before any network call;
every failure outcome returns the fallback sort; a parsed response
rebuilds the list in ranked order, copying each referenced moment with its
scores and rank filled in and silently dropping out-of-range indices. The
function is total: no failure propagates to the caller. -/
def global_reranking (outcome : RerankOutcome) (moments : List Moment) : List Moment :=
  if moments = [] then []
  else
    match outcome with
    | .rateLimitedAll => fallback_sort moments
    | .apiError => fallback_sort moments
    | .requestException => fallback_sort moments
    | .ok ranked =>
      ranked.foldl
        (fun (reranked : List Moment) (rank_info : RankInfo) =>
          if 0 ≤ rank_info.original_index ∧ rank_info.original_index < (moments.length : Int) then
            -- the guard makes toNat faithful to the Python integer index
            match moments[rank_info.original_index.toNat]? with
            | some m =>
              let initial := viral_score_d m
              reranked ++ [{ m with
                initial_score := some initial
                final_score := some (rank_info.final_score.getD initial)
                ranking_reason := some (rank_info.ranking_reason.getD "")
                global_ranking := some (reranked.length + 1) }]
            | none => reranked
          else reranked)
        []

/-! ### consolidate_moments -/

/-- The consolidation statistics dictionary. -/
structure ConsolidationStats where
  total_candidates_extracted : Nat
  overlap_duplicates_removed : Nat
  semantic_duplicates_removed : Int
  final_moments_count : Nat
  avg_initial_score : ℚ
  avg_final_score : ℚ
  top_moment_score : ℚ
deriving DecidableEq, Repr

/-- consolidate_moments: exact duplicate removal, then semantic
deduplication, then global reranking, then the statistics. The two network
outcomes and the similarity function are passed through as parameters. -/
def consolidate_moments (sim : List ℚ → List ℚ → ℚ) (threshold : ℚ)
    (embeddings : Option (List (List ℚ))) (outcome : RerankOutcome)
    (all_chunks_moments : List Moment) :
    List Moment × ConsolidationStats × List DedupDecision :=
  let st := remove_exact_duplicates all_chunks_moments
  let unique_moments := st.unique_moments
  let sem := semantic_deduplication sim threshold embeddings unique_moments
  let final_moments := global_reranking outcome sem.1
  let stats : ConsolidationStats :=
    { total_candidates_extracted := all_chunks_moments.length
      overlap_duplicates_removed := st.overlap_duplicates
      semantic_duplicates_removed := (unique_moments.length : Int) - sem.1.length
      final_moments_count := final_moments.length
      avg_initial_score :=
        if all_chunks_moments = [] then 0
        else (all_chunks_moments.map viral_score_d).sum / all_chunks_moments.length
      avg_final_score :=
        if final_moments = [] then 0
        else (final_moments.map fun m => m.final_score.getD (viral_score_d m)).sum
          / final_moments.length
      top_moment_score :=
        match final_moments with
        | [] => 0
        | m :: _ => m.final_score.getD (m.viral_score.getD 0) }
  (final_moments, stats, sem.2)

/-! ## Concrete inputs used by the claim theorems -/

/-- Three captions with two qualifying gaps near target 200: one of pause
10 ending at 100, one of pause 5 ending at 200. -/
def caps1 : List Caption := [(0, 100, "a"), (110, 200, "b"), (205, 9000, "c")]

/-- Two captions far apart: the middle of the session has no captions. -/
def caps2 : List Caption := [(0, 1, "a"), (20000, 20001, "b")]

/-- A single long caption, for the degenerate-parameter chunking step. -/
def caps7 : List Caption := [(0, 1000, "a")]

/-- Captions whose last end is exactly 9000, with a pause of 10 seconds
ending at 8950. -/
def caps8 : List Caption := [(0, 100, "a"), (105, 8950, "b"), (8960, 9000, "c")]

/-- The same captions with the last end moved to 9001. -/
def caps8b : List Caption := [(0, 100, "a"), (105, 8950, "b"), (8960, 9001, "c")]

/-- One caption spanning the first minute. -/
def capsW : List Caption := [(0, 60, "hello world")]

/-- A non-overlap candidate. -/
def momNF : Moment := { quote := "Fix the MRT", speaker := some "primary" }

/-- An overlap-region candidate with the same normalised quote. -/
def momOV : Moment :=
  { quote := "fix the mrt ", speaker := some "overlap", is_in_overlap_region := true }

/-- First of two non-overlap duplicates. -/
def momF1 : Moment := { quote := "x", speaker := some "first" }

/-- Second of two non-overlap duplicates. -/
def momF2 : Moment := { quote := "x", speaker := some "second" }

/-- First of two overlap duplicates. -/
def momT1 : Moment := { quote := "y", speaker := some "first", is_in_overlap_region := true }

/-- Second of two overlap duplicates. -/
def momT2 : Moment := { quote := "y", speaker := some "second", is_in_overlap_region := true }

/-- A candidate with an explicit score. -/
def momS1 : Moment := { quote := "s1", viral_score := some 9 }

/-- A candidate with no score, standing for the 7.0 default. -/
def momS2 : Moment := { quote := "s2" }

/-- A filler candidate with a distinct quote key. -/
def momX : Moment := { quote := "filler", viral_score := some 8 }

/-! ## Order helper lemmas -/

theorem pairLex_total (a b : ℚ × ℚ) : pairLex a b ∨ pairLex b a := by
  unfold pairLex
  rcases lt_trichotomy a.1 b.1 with h | h | h
  · exact Or.inl (Or.inl h)
  · rcases le_total a.2 b.2 with h2 | h2
    · exact Or.inl (Or.inr ⟨h, h2⟩)
    · exact Or.inr (Or.inr ⟨h.symm, h2⟩)
  · exact Or.inr (Or.inl h)

theorem pairLex_trans (a b c : ℚ × ℚ) (hab : pairLex a b) (hbc : pairLex b c) : pairLex a c := by
  unfold pairLex at *
  rcases hab with h1 | ⟨h1, h1'⟩ <;> rcases hbc with h2 | ⟨h2, h2'⟩
  · exact Or.inl (lt_trans h1 h2)
  · exact Or.inl (h2 ▸ h1)
  · exact Or.inl (h1 ▸ h2)
  · exact Or.inr ⟨h1.trans h2, h1'.trans h2'⟩

/-- The head of a list sorted by a total relation is below every element. -/
theorem head_sorted_le {α : Type} {r : α → α → Prop}
    (htot : ∀ a b, r a b ∨ r b a) {c : α} {rest : List α}
    (hs : List.Pairwise r (c :: rest)) : ∀ d ∈ c :: rest, r c d := by
  intro d hd
  rcases List.mem_cons.mp hd with h | h
  · subst h
    exact (htot d d).elim id id
  · exact (List.pairwise_cons.mp hs).1 d h

/-! ## C1: natural break selection -/

/-- The sort relation of find_speaker_change. -/
def fscRel (target_time : ℚ) (a b : ℚ × ℚ) : Prop :=
  pairLex (fscKey target_time a) (fscKey target_time b)

instance (t : ℚ) (a b : ℚ × ℚ) : Decidable (fscRel t a b) := by
  unfold fscRel
  exact inferInstance

instance (t : ℚ) : IsTotal (ℚ × ℚ) (fscRel t) :=
  ⟨fun x y => pairLex_total (fscKey t x) (fscKey t y)⟩

instance (t : ℚ) : IsTrans (ℚ × ℚ) (fscRel t) :=
  ⟨fun x y z hxy hyz => pairLex_trans (fscKey t x) (fscKey t y) (fscKey t z) hxy hyz⟩

theorem find_speaker_change_eq_sort_head (captions : List Caption) (t w : ℚ) :
    find_speaker_change captions t w =
      match (speakerChangeCandidates captions t w).insertionSort (fscRel t) with
      | [] => t
      | c :: _ => c.1 := rfl

/-- C1 (amended): find_speaker_change returns the target when no gap within
the window has a pause over 3 seconds, and otherwise returns a candidate
gap end that is closest to the target, with ties on distance broken by the
largest pause. -/
theorem find_speaker_change_closest_first (captions : List Caption) (t w : ℚ) :
    (speakerChangeCandidates captions t w = [] → find_speaker_change captions t w = t) ∧
    (speakerChangeCandidates captions t w ≠ [] →
      ∃ c ∈ speakerChangeCandidates captions t w,
        find_speaker_change captions t w = c.1 ∧
        ∀ d ∈ speakerChangeCandidates captions t w,
          |c.1 - t| < |d.1 - t| ∨ (|c.1 - t| = |d.1 - t| ∧ d.2 ≤ c.2)) := by
  have hperm := List.perm_insertionSort (fscRel t) (speakerChangeCandidates captions t w)
  constructor
  · intro h
    rw [find_speaker_change_eq_sort_head, h]
    rfl
  · intro h
    rcases hsort : (speakerChangeCandidates captions t w).insertionSort (fscRel t) with
      _ | ⟨c, rest⟩
    · exact absurd (hsort ▸ hperm).nil_eq.symm h
    · have hsorted : List.Pairwise (fscRel t) (c :: rest) := by
        rw [← hsort]
        exact List.sorted_insertionSort (fscRel t) _
      have hmem : c ∈ speakerChangeCandidates captions t w := by
        rw [← hperm.mem_iff, hsort]
        exact List.mem_cons_self c rest
      refine ⟨c, hmem, ?_, ?_⟩
      · rw [find_speaker_change_eq_sort_head, hsort]
      · intro d hd
        have hd' : d ∈ c :: rest := by
          rw [← hsort, hperm.mem_iff]
          exact hd
        have hr : fscRel t c d :=
          head_sorted_le (fun a b => pairLex_total _ _) hsorted d hd'
        rcases hr with h1 | ⟨h2, h3⟩
        · exact Or.inl h1
        · exact Or.inr ⟨h2, neg_le_neg_iff.mp h3⟩

theorem find_speaker_change_closest_first_witness :
    ∃ c ∈ speakerChangeCandidates caps1 200 120,
      find_speaker_change caps1 200 120 = c.1 ∧
      ∀ d ∈ speakerChangeCandidates caps1 200 120,
        |c.1 - 200| < |d.1 - 200| ∨ (|c.1 - 200| = |d.1 - 200| ∧ d.2 ≤ c.2) :=
  (find_speaker_change_closest_first caps1 200 120).2 (by decide)

/-- C1 (counterexample): among the qualifying gaps near target 200 the gap
at 100 has the strictly larger pause (10 against 5), yet the code selects
the gap at 200; the rule worded by the spec would select 100. -/
theorem find_speaker_change_not_largest_pause :
    speakerChangeCandidates caps1 200 120 = [(100, 10), (200, 5)] ∧
    (5 : ℚ) < 10 ∧
    find_speaker_change caps1 200 120 = 200 ∧
    spec_break_selection caps1 200 120 = 100 := by decide

/-! ## C5: reranking failure fallback -/

instance : IsTotal Moment scoreDesc :=
  ⟨fun x y => le_total (viral_score_d y) (viral_score_d x)⟩

instance : IsTrans Moment scoreDesc :=
  ⟨fun _ _ _ h1 h2 => le_trans h2 h1⟩

theorem fallback_sort_perm (moments : List Moment) :
    (fallback_sort moments).Perm moments :=
  List.perm_insertionSort scoreDesc moments

theorem fallback_sort_sorted (moments : List Moment) :
    (fallback_sort moments).Pairwise scoreDesc :=
  List.sorted_insertionSort scoreDesc moments

theorem fallback_sort_stable (moments : List Moment) {a b : Moment} (hab : scoreDesc a b)
    (h : [a, b].Sublist moments) : [a, b].Sublist (fallback_sort moments) :=
  List.pair_sublist_insertionSort hab h

/-- C5: on every failure outcome of the ranking call, global_reranking
returns a permutation of its input that is sorted by the defaulted viral
score in descending order and stable (pairs already in descending order,
in particular equal-score pairs, keep their input order) — the unique
stable descending sort, which is what Python sorted with reverse=True
computes; being a total function, it propagates no error. -/
theorem global_reranking_failure_fallback_sort (moments : List Moment) :
    ∀ outcome ∈ [RerankOutcome.rateLimitedAll, RerankOutcome.apiError,
        RerankOutcome.requestException],
      (global_reranking outcome moments).Perm moments ∧
      (global_reranking outcome moments).Pairwise scoreDesc ∧
      (∀ a b : Moment, scoreDesc a b → [a, b].Sublist moments →
        [a, b].Sublist (global_reranking outcome moments)) := by
  intro outcome houtcome
  have hcases : outcome = RerankOutcome.rateLimitedAll ∨ outcome = RerankOutcome.apiError ∨
      outcome = RerankOutcome.requestException := by
    simpa using houtcome
  by_cases hm : moments = []
  · subst hm
    rcases hcases with h | h | h <;> subst h <;>
      exact ⟨List.Perm.refl _, List.Pairwise.nil,
        fun a b _ hsub => absurd (List.sublist_nil.mp hsub) (by simp)⟩
  · rcases hcases with h | h | h <;> subst h <;>
      · simp only [global_reranking, if_neg hm]
        exact ⟨fallback_sort_perm moments, fallback_sort_sorted moments,
          fun a b hab hsub => fallback_sort_stable moments hab hsub⟩

theorem global_reranking_failure_fallback_sort_witness :
    (global_reranking RerankOutcome.rateLimitedAll [momS2, momS1]).Perm [momS2, momS1] ∧
    (global_reranking RerankOutcome.rateLimitedAll [momS2, momS1]).Pairwise scoreDesc ∧
    (∀ a b : Moment, scoreDesc a b → [a, b].Sublist [momS2, momS1] →
      [a, b].Sublist (global_reranking RerankOutcome.rateLimitedAll [momS2, momS1])) :=
  global_reranking_failure_fallback_sort [momS2, momS1] RerankOutcome.rateLimitedAll
    (by simp)

/-! ## Chunker lemmas -/

theorem mem_speakerChangeCandidates {captions : List Caption} {t w : ℚ} {x : ℚ × ℚ}
    (hx : x ∈ speakerChangeCandidates captions t w) : |x.1 - t| ≤ w := by
  unfold speakerChangeCandidates at hx
  rw [List.mem_filterMap] at hx
  obtain ⟨p, _, hfx⟩ := hx
  dsimp only at hfx
  by_cases h1 : |p.1.2.1 - t| ≤ w
  · rw [if_pos h1] at hfx
    by_cases h2 : p.2.1 - p.1.2.1 > 3
    · rw [if_pos h2] at hfx
      cases hfx
      exact h1
    · rw [if_neg h2] at hfx
      cases hfx
  · rw [if_neg h1] at hfx
    cases hfx

theorem find_speaker_change_ge (captions : List Caption) (t w : ℚ) (hw : 0 ≤ w) :
    t - w ≤ find_speaker_change captions t w := by
  rw [find_speaker_change_eq_sort_head]
  rcases hsort : (speakerChangeCandidates captions t w).insertionSort (fscRel t) with
    _ | ⟨c, rest⟩
  · linarith
  · have hmem : c ∈ speakerChangeCandidates captions t w := by
      rw [← (List.perm_insertionSort (fscRel t) _).mem_iff, hsort]
      exact List.mem_cons_self c rest
    have habs := mem_speakerChangeCandidates hmem
    have := (abs_le.mp habs).1
    dsimp only
    linarith

theorem actualEnd_lb (captions : List Caption) (cd cs : ℚ)
    (h : actualEnd captions cd cs < lastEnd captions) :
    cs + cd - 180 ≤ actualEnd captions cd cs := by
  unfold actualEnd at h ⊢
  by_cases ht : cs + cd < lastEnd captions
  · rw [if_pos ht] at h ⊢
    have := find_speaker_change_ge captions (cs + cd) 180 (by norm_num)
    linarith
  · rw [if_neg ht] at h
    exact absurd h (lt_irrefl _)

theorem chunkStep_next_start (captions : List Caption) (cd od cs : ℚ) (cid : Nat) :
    (chunkStep captions cd od cs cid).next_start = actualEnd captions cd cs - od := by
  unfold chunkStep
  dsimp only
  split <;> rfl

theorem chunkStep_halt_iff (captions : List Caption) (cd od cs : ℚ) (cid : Nat) :
    (chunkStep captions cd od cs cid).halt = false ↔
      actualEnd captions cd cs < lastEnd captions := by
  unfold chunkStep
  dsimp only
  constructor
  · intro h
    split at h <;>
      simpa only [decide_eq_false_iff_not, ge_iff_le, not_le] using h
  · intro h
    split <;>
      simp only [decide_eq_false_iff_not, ge_iff_le, not_le] <;> exact h

theorem chunkStep_emitted_shape {captions : List Caption} {cd od cs : ℚ} {cid : Nat}
    {ch : Chunk} (h : (chunkStep captions cd od cs cid).emitted = some ch) :
    ch.start_time = cs ∧ ch.end_time = actualEnd captions cd cs ∧
    ch.captions ≠ [] ∧ ch.caption_count = ch.captions.length := by
  unfold chunkStep at h
  dsimp only at h
  split at h
  · cases h
  · rename_i hne
    cases h
    exact ⟨rfl, rfl, hne, rfl⟩

theorem chunkStep_emitted_mem {captions : List Caption} {cd cs : ℚ} (od : ℚ) (cid : Nat)
    {c : Caption} (hmem : c ∈ captions) (h1 : cs ≤ c.1)
    (h2 : c.1 < actualEnd captions cd cs) :
    ∃ ch, (chunkStep captions cd od cs cid).emitted = some ch ∧
      ch.start_time = cs ∧ ch.end_time = actualEnd captions cd cs := by
  unfold chunkStep
  dsimp only
  have hne : captions.filter
      (fun x => decide (cs ≤ x.1 ∧ x.1 < actualEnd captions cd cs)) ≠ [] := by
    intro hnil
    have hcmem : c ∈ captions.filter
        (fun x => decide (cs ≤ x.1 ∧ x.1 < actualEnd captions cd cs)) := by
      rw [List.mem_filter]
      exact ⟨hmem, by simp [h1, h2]⟩
    rw [hnil] at hcmem
    exact absurd hcmem (List.not_mem_nil c)
  rw [if_neg hne]
  exact ⟨_, rfl, rfl, rfl⟩

/-! ## C2: chunk coverage -/

theorem chunkLoop_covers (captions : List Caption) :
    ∀ (fuel : Nat) (cs : ℚ) (cid : Nat) (c : Caption),
      c ∈ captions → cs ≤ c.1 → c.1 < lastEnd captions →
      lastEnd captions ≤ cs + (fuel : ℚ) * 7620 →
      ∃ ch ∈ chunkLoop captions 9000 1200 fuel cs cid,
        ch.start_time ≤ c.1 ∧ c.1 < ch.end_time := by
  intro fuel
  induction fuel with
  | zero =>
    intro cs cid c _ h1 h2 h3
    exfalso
    push_cast at h3
    linarith
  | succ n ih =>
    intro cs cid c hc h1 h2 h3
    have hcs : cs < lastEnd captions := lt_of_le_of_lt h1 h2
    rw [chunkLoop]
    rw [if_pos hcs]
    by_cases hlt : c.1 < actualEnd captions 9000 cs
    · obtain ⟨ch, hch, hst, hen⟩ := chunkStep_emitted_mem 1200 cid hc h1 hlt
      refine ⟨ch, ?_, by rw [hst]; exact h1, by rw [hen]; exact hlt⟩
      apply List.mem_append_left
      simp [hch]
    · push_neg at hlt
      have hae_lt : actualEnd captions 9000 cs < lastEnd captions := lt_of_le_of_lt hlt h2
      have hhalt : (chunkStep captions 9000 1200 cs cid).halt = false :=
        (chunkStep_halt_iff captions 9000 1200 cs cid).mpr hae_lt
      have hlb := actualEnd_lb captions 9000 cs hae_lt
      have hfuel' : lastEnd captions ≤
          (actualEnd captions 9000 cs - 1200) + (n : ℚ) * 7620 := by
        push_cast at h3
        linarith
      obtain ⟨ch, hch, hsp⟩ := ih (actualEnd captions 9000 cs - 1200)
        (chunkStep captions 9000 1200 cs cid).next_id c hc (by linarith) h2 hfuel'
      refine ⟨ch, ?_, hsp⟩
      apply List.mem_append_right
      rw [hhalt]
      simpa [chunkStep_next_start] using hch

/-- C2 (amended): with the default parameters and an iteration budget
covering the session, every caption whose non-negative start time lies
strictly before the last caption's end is contained in the half-open time
range of some emitted chunk. Full interval coverage and contiguity fail:
iterations whose window holds no caption start emit nothing, leaving that
window uncovered (see the counterexample). -/
theorem chunker_covers_caption_starts (captions : List Caption) (fuel : Nat) (c : Caption)
    (hne : captions ≠ []) (hc : c ∈ captions) (h0 : 0 ≤ c.1)
    (hlt : c.1 < lastEnd captions)
    (hfuel : lastEnd captions ≤ (fuel : ℚ) * 7620) :
    ∃ ch ∈ chunk_with_overlap captions 9000 1200 fuel,
      ch.start_time ≤ c.1 ∧ c.1 < ch.end_time := by
  unfold chunk_with_overlap
  rw [if_neg hne]
  exact chunkLoop_covers captions fuel 0 0 c hc h0 hlt (by simpa using hfuel)

theorem chunker_covers_caption_starts_witness :
    ∃ ch ∈ chunk_with_overlap caps2 9000 1200 3,
      ch.start_time ≤ ((0 : ℚ), (1 : ℚ), "a").1 ∧ ((0 : ℚ), (1 : ℚ), "a").1 < ch.end_time :=
  chunker_covers_caption_starts caps2 3 (0, 1, "a") (by decide) (by decide) (by decide)
    (by decide) (by decide)

/-- C2 (counterexample): on caps2 the emitted chunks are [0, 9000) and
[15600, 20001): the point 9000 lies between 0 and the total duration yet
falls outside every chunk, and the second chunk's start is not the first
chunk's end minus the overlap. -/
theorem chunker_coverage_gap :
    (chunk_with_overlap caps2 9000 1200 5).map (fun ch => (ch.start_time, ch.end_time)) =
      [(0, 9000), (15600, 20001)] ∧
    caps2 ≠ [] ∧
    lastEnd caps2 = 20001 ∧
    (∀ ch ∈ chunk_with_overlap caps2 9000 1200 5,
      ¬ (ch.start_time ≤ 9000 ∧ (9000 : ℚ) < ch.end_time)) ∧
    ((15600 : ℚ) ≠ 9000 - 1200) := by decide

/-! ## C7: chunker progress -/

theorem chunkStep_emitted_nonempty {captions : List Caption} {cd od cs : ℚ} {cid : Nat}
    {ch : Chunk} (h : (chunkStep captions cd od cs cid).emitted = some ch) :
    ch.captions ≠ [] ∧ 0 < ch.caption_count := by
  obtain ⟨_, _, hne, hcount⟩ := chunkStep_emitted_shape h
  refine ⟨hne, ?_⟩
  rw [hcount]
  exact List.length_pos.mpr hne

theorem chunkLoop_chunks_nonempty (captions : List Caption) (cd od : ℚ) :
    ∀ (fuel : Nat) (cs : ℚ) (cid : Nat),
      ∀ ch ∈ chunkLoop captions cd od fuel cs cid, ch.captions ≠ [] ∧ 0 < ch.caption_count := by
  intro fuel
  induction fuel with
  | zero =>
    intro cs cid ch h
    exact absurd h (List.not_mem_nil ch)
  | succ n ih =>
    intro cs cid ch h
    rw [chunkLoop] at h
    by_cases hcs : cs < lastEnd captions
    · rw [if_pos hcs] at h
      rcases List.mem_append.mp h with h | h
      · rcases hem : (chunkStep captions cd od cs cid).emitted with _ | ch'
        · rw [hem] at h
          exact absurd h (List.not_mem_nil ch)
        · rw [hem] at h
          have : ch = ch' := by simpa using h
          subst this
          exact chunkStep_emitted_nonempty hem
      · by_cases hhalt : (chunkStep captions cd od cs cid).halt
        · rw [if_pos hhalt] at h
          exact absurd h (List.not_mem_nil ch)
        · rw [if_neg hhalt] at h
          exact ih _ _ ch h
    · rw [if_neg hcs] at h
      exact absurd h (List.not_mem_nil ch)

/-- C7 (amended): for every parameter choice the chunker never emits a
chunk holding zero captions (empty windows are skipped, not emitted); and
with the default parameters (chunk duration 9000, overlap 1200, break
window 180) every non-final iteration advances current_start by at least
7620 seconds, so the loop terminates. For other parameter choices the
strict increase fails (see the counterexample). -/
theorem chunker_progress_default_params :
    (∀ (captions : List Caption) (cd od : ℚ) (fuel : Nat) (cs : ℚ) (cid : Nat),
      ∀ ch ∈ chunkLoop captions cd od fuel cs cid,
        ch.captions ≠ [] ∧ 0 < ch.caption_count) ∧
    (∀ (captions : List Caption) (cs : ℚ) (cid : Nat),
      (chunkStep captions 9000 1200 cs cid).halt = false →
      cs + 7620 ≤ (chunkStep captions 9000 1200 cs cid).next_start) := by
  constructor
  · intro captions cd od fuel cs cid ch h
    exact chunkLoop_chunks_nonempty captions cd od fuel cs cid ch h
  · intro captions cs cid hhalt
    have hae_lt := (chunkStep_halt_iff captions 9000 1200 cs cid).mp hhalt
    have hlb := actualEnd_lb captions 9000 cs hae_lt
    rw [chunkStep_next_start]
    linarith

theorem chunker_progress_default_params_witness :
    ((0 : ℚ) + 7620 ≤ (chunkStep caps2 9000 1200 0 0).next_start) ∧
    (∀ ch ∈ chunkLoop caps2 9000 1200 5 0 0, ch.captions ≠ [] ∧ 0 < ch.caption_count) :=
  ⟨chunker_progress_default_params.2 caps2 0 0 (by decide),
   fun ch h => chunker_progress_default_params.1 caps2 9000 1200 5 0 0 ch h⟩

/-- C7 (counterexample): with chunk_duration 100 and overlap_duration 200
on caps7, the first iteration does not halt (a caption remains beyond the
chosen end) yet current_start moves from 0 to -100 — it decreases instead
of strictly increasing, so the claim fails for general parameters. -/
theorem chunker_progress_fails_general_params :
    (chunkStep caps7 100 200 0 0).halt = false ∧
    (chunkStep caps7 100 200 0 0).next_start = -100 ∧
    ¬ ((0 : ℚ) < (chunkStep caps7 100 200 0 0).next_start) := by decide

/-! ## C8: chunking worked example -/

/-- C8 (counterexample): caps8 ends exactly at 9000 and has a pause of 10
seconds ending at 8950 within the break window of 9000, matching the
claim's premises; but with the first target end equal to the session end,
no break search happens and the chunker emits a single chunk ending at
9000 — not a first chunk ending at 8950 and a second starting at 7750. -/
theorem chunk_worked_example_as_stated_fails :
    lastEnd caps8 = 9000 ∧
    speakerChangeCandidates caps8 9000 180 = [(8950, 10)] ∧
    (chunk_with_overlap caps8 9000 1200 5).map (fun ch => (ch.start_time, ch.end_time)) =
      [(0, 9000)] := by decide

/-- C8 (amended): when the last caption ends strictly after the 9000
target (here at 9001), the break at 8950 is chosen: the first chunk ends
at 8950 and the second starts at 7750 = 8950 - 1200. -/
theorem chunk_worked_example_adjusted :
    lastEnd caps8b = 9001 ∧
    speakerChangeCandidates caps8b 9000 180 = [(8950, 10)] ∧
    (chunk_with_overlap caps8b 9000 1200 5).map (fun ch => (ch.start_time, ch.end_time)) =
      [(0, 8950), (7750, 9001)] := by decide

/-! ## C9: caption parser tolerance -/

/-- A line is a well-formed timestamp line, or no timestamp line at all:
when its stripped form contains the arrow separator, the left part parses,
the right part has a first whitespace token, and that token parses. Exactly
these conditions keep parse_vtt_with_timestamps from raising on the line. -/
def timestampLineOk (l : String) : Bool :=
  if pyIn "-->" (pyStrip l) then
    let timestamp_parts := pySplitOn (pyStrip l) "-->"
    (parse_timestamp (timestamp_parts.getD 0 "")).isOk &&
      (match pySplitWs (pyStrip (timestamp_parts.getD 1 "")) with
       | [] => false
       | w :: _ => (parse_timestamp w).isOk)
  else true

theorem consumeTextLines_snd_suffix : ∀ ls : List String, (consumeTextLines ls).2 <:+ ls
  | [] => List.suffix_refl []
  | l :: t => by
    unfold consumeTextLines
    by_cases h : pyStrip l ≠ "" ∧ ¬ pyIn "-->" l
    · simp only [if_pos h]
      exact (consumeTextLines_snd_suffix t).trans (List.suffix_cons l t)
    · simp only [if_neg h]
      exact List.suffix_refl _

theorem parseLoop_ok :
    ∀ (budget : Nat) (ls : List String),
      (∀ l ∈ ls, timestampLineOk l = true) → (parseLoop budget ls).isOk = true := by
  intro budget
  induction budget with
  | zero =>
    intro ls _
    rfl
  | succ n ih =>
    intro ls h
    cases ls with
    | nil => rfl
    | cons l rest =>
      rw [parseLoop]
      by_cases harrow : pyIn "-->" (pyStrip l)
      · rw [if_pos harrow]
        dsimp only
        have hok := h l (List.mem_cons_self l rest)
        rw [timestampLineOk, if_pos harrow, Bool.and_eq_true] at hok
        obtain ⟨hok0, hok1⟩ := hok
        rcases hp0 : parse_timestamp ((pySplitOn (pyStrip l) "-->").getD 0 "") with e | v0
        · rw [hp0] at hok0
          exact absurd hok0 (by simp [Except.isOk, Except.toBool])
        · rcases hws : pySplitWs (pyStrip ((pySplitOn (pyStrip l) "-->").getD 1 "")) with
            _ | ⟨w, ws⟩
          · rw [hws] at hok1
            exact absurd hok1 (by simp)
          · rw [hws] at hok1
            dsimp only at hok1
            rcases hp1 : parse_timestamp w with e | v1
            · rw [hp1] at hok1
              exact absurd hok1 (by simp [Except.isOk, Except.toBool])
            · have hrec : (parseLoop n (consumeTextLines rest).2.tail).isOk = true := by
                apply ih
                intro l' hl'
                apply h
                apply List.mem_cons_of_mem
                have hsub : (consumeTextLines rest).2.tail <:+ rest :=
                  (List.tail_suffix _).trans (consumeTextLines_snd_suffix rest)
                exact hsub.subset hl'
              rcases hpl : parseLoop n (consumeTextLines rest).2.tail with e | caps
              · rw [hpl] at hrec
                exact absurd hrec (by simp [Except.isOk, Except.toBool])
              · dsimp only
                rw [hp1]
                rfl
      · rw [if_neg harrow]
        exact ih rest fun l' hl' => h l' (List.mem_cons_of_mem l hl')

/-- C9 (amended): the parser is total exactly on inputs whose arrow lines
are well formed — for every input string in which each line containing the
arrow separator has a parseable left timestamp and a non-empty, parseable
first token on the right, parsing succeeds (malformed text blocks only
yield fewer captions). A line violating these conditions raises an
IndexError or ValueError that aborts the whole parse (counterexample). -/
theorem parser_total_on_wellformed_lines (vtt_content : String)
    (h : ∀ l ∈ pySplitOn vtt_content "\n", timestampLineOk l = true) :
    (parse_vtt_with_timestamps vtt_content).isOk = true :=
  parseLoop_ok _ _ h

theorem parser_total_on_wellformed_lines_witness :
    (parse_vtt_with_timestamps
      "WEBVTT\n\n00:00:01 --> 00:00:03.5\nhello\nworld\n\nbad block\n").isOk = true :=
  parser_total_on_wellformed_lines _ (by decide)

/-- C9 (counterexample): a lone arrow line raises IndexError (the right
side has no token), and non-numeric two-field timestamps raise ValueError;
both abort the whole parse instead of skipping the block. -/
theorem parser_raises_on_malformed_arrow_line :
    parse_vtt_with_timestamps "-->" = .error "IndexError" ∧
    parse_vtt_with_timestamps "a:b --> c:d" = .error "ValueError" := by decide

/-! ## Association list lemmas for the step-1 quote table -/

theorem lookup_append_some {k : String} {l1 l2 : List (String × Nat)} {v : Nat}
    (h : List.lookup k l1 = some v) : List.lookup k (l1 ++ l2) = some v := by
  induction l1 with
  | nil => simp [List.lookup] at h
  | cons p t ih =>
    obtain ⟨a, b⟩ := p
    rw [List.cons_append]
    simp only [List.lookup] at h ⊢
    rcases hab : k == a with _ | _
    · rw [hab] at h
      exact ih h
    · rw [hab] at h
      exact h

theorem lookup_append_none {k : String} {l1 l2 : List (String × Nat)}
    (h : List.lookup k l1 = none) : List.lookup k (l1 ++ l2) = List.lookup k l2 := by
  induction l1 with
  | nil => simp
  | cons p t ih =>
    obtain ⟨a, b⟩ := p
    rw [List.cons_append]
    simp only [List.lookup] at h ⊢
    rcases hab : k == a with _ | _
    · rw [hab] at h
      exact ih h
    · rw [hab] at h
      cases h

theorem lookup_mem {k : String} {v : Nat} {l : List (String × Nat)}
    (h : List.lookup k l = some v) : (k, v) ∈ l := by
  induction l with
  | nil => simp [List.lookup] at h
  | cons p t ih =>
    obtain ⟨a, b⟩ := p
    simp only [List.lookup] at h
    rcases hab : k == a with _ | _
    · rw [hab] at h
      exact List.mem_cons_of_mem _ (ih h)
    · rw [hab] at h
      cases h
      have : k = a := eq_of_beq hab
      subst this
      exact List.mem_cons_self _ _

/-! ## The step-1 loop invariants -/

/-- State of the step-1 loop before any moment with quote key k was seen:
the table has no entry for k, no kept moment has key k, and all table
positions are in range. -/
def NoKey (k : String) (st : DedupState) : Prop :=
  List.lookup k st.seen_quotes = none ∧
  (∀ x ∈ st.unique_moments, quote_key x ≠ k) ∧
  (∀ p ∈ st.seen_quotes, p.2 < st.unique_moments.length)

/-- State of the step-1 loop once a moment with quote key k occupies
position i: the table sends k to i, position i holds the currently kept
moment, every other position holds a different key, entries for other keys
avoid position i, and all table positions are in range. -/
def KeyInv (k : String) (i : Nat) (kept : Moment) (st : DedupState) : Prop :=
  List.lookup k st.seen_quotes = some i ∧
  st.unique_moments[i]? = some kept ∧
  (∀ j x, j ≠ i → st.unique_moments[j]? = some x → quote_key x ≠ k) ∧
  (∀ p ∈ st.seen_quotes, p.1 ≠ k → p.2 ≠ i) ∧
  (∀ p ∈ st.seen_quotes, p.2 < st.unique_moments.length)

theorem NoKey_step {k : String} {st : DedupState} {m : Moment}
    (hm : quote_key m ≠ k) (h : NoKey k st) :
    NoKey k (remove_exact_duplicates_step st m) := by
  obtain ⟨h1, h2, h3⟩ := h
  unfold remove_exact_duplicates_step
  dsimp only
  rcases hl : List.lookup (quote_key m) st.seen_quotes with _ | idx
  all_goals dsimp only
  · refine ⟨?_, ?_, ?_⟩
    · rw [lookup_append_none h1]
      have : (k == quote_key m) = false := beq_eq_false_iff_ne.mpr (Ne.symm hm)
      simp [List.lookup, this]
    · intro x hx
      rcases List.mem_append.mp hx with hx | hx
      · exact h2 x hx
      · simp only [List.mem_singleton] at hx
        subst hx
        exact hm
    · intro p hp
      rcases List.mem_append.mp hp with hp | hp
      · have := h3 p hp
        simp only [List.length_append, List.length_singleton]
        omega
      · simp only [List.mem_singleton] at hp
        subst hp
        simp [List.length_append]
  · by_cases hov : m.is_in_overlap_region
    · rw [if_pos hov]
      exact ⟨h1, h2, h3⟩
    · rw [if_neg hov]
      refine ⟨h1, ?_, ?_⟩
      · intro x hx
        rcases List.mem_or_eq_of_mem_set hx with hx | hx
        · exact h2 x hx
        · subst hx
          exact hm
      · intro p hp
        have := h3 p hp
        simpa [List.length_set] using this

theorem KeyInv_step_other {k : String} {i : Nat} {kept m : Moment} {st : DedupState}
    (hm : quote_key m ≠ k) (h : KeyInv k i kept st) :
    KeyInv k i kept (remove_exact_duplicates_step st m) := by
  obtain ⟨h1, h2, h3, h4, h5⟩ := h
  obtain ⟨hilen, -⟩ := List.getElem?_eq_some.mp h2
  unfold remove_exact_duplicates_step
  dsimp only
  rcases hl : List.lookup (quote_key m) st.seen_quotes with _ | idx
  all_goals dsimp only
  · refine ⟨lookup_append_some h1, ?_, ?_, ?_, ?_⟩
    · rw [List.getElem?_append_left hilen]
      exact h2
    · intro j x hj hx
      by_cases hjl : j < st.unique_moments.length
      · rw [List.getElem?_append_left hjl] at hx
        exact h3 j x hj hx
      · by_cases hje : j = st.unique_moments.length
        · subst hje
          rw [List.getElem?_concat_length] at hx
          cases hx
          exact hm
        · rw [List.getElem?_eq_none (by simp; omega)] at hx
          cases hx
    · intro p hp hpk
      rcases List.mem_append.mp hp with hp | hp
      · exact h4 p hp hpk
      · simp only [List.mem_singleton] at hp
        subst hp
        simp only
        omega
    · intro p hp
      rcases List.mem_append.mp hp with hp | hp
      · have := h5 p hp
        simp only [List.length_append, List.length_singleton]
        omega
      · simp only [List.mem_singleton] at hp
        subst hp
        simp [List.length_append]
  · have hidx_ne : idx ≠ i := h4 _ (lookup_mem hl) hm
    have hidxlen : idx < st.unique_moments.length := h5 _ (lookup_mem hl)
    by_cases hov : m.is_in_overlap_region
    · rw [if_pos hov]
      exact ⟨h1, h2, h3, h4, h5⟩
    · rw [if_neg hov]
      refine ⟨h1, ?_, ?_, h4, ?_⟩
      · rw [List.getElem?_set_ne hidx_ne]
        exact h2
      · intro j x hj hx
        by_cases hji : j = idx
        · subst hji
          rw [List.getElem?_set_self hidxlen] at hx
          cases hx
          exact hm
        · rw [List.getElem?_set_ne (Ne.symm hji)] at hx
          exact h3 j x hj hx
      · intro p hp
        have := h5 p hp
        simpa [List.length_set] using this

theorem KeyInv_insert {k : String} {st : DedupState} {m : Moment}
    (hm : quote_key m = k) (h : NoKey k st) :
    KeyInv k st.unique_moments.length m (remove_exact_duplicates_step st m) := by
  obtain ⟨h1, h2, h3⟩ := h
  unfold remove_exact_duplicates_step
  dsimp only
  simp only [hm, h1]
  refine ⟨?_, ?_, ?_, ?_, ?_⟩
  · rw [lookup_append_none h1]
    simp [List.lookup]
  · rw [List.getElem?_concat_length]
  · intro j x hj hx
    by_cases hjl : j < st.unique_moments.length
    · rw [List.getElem?_append_left hjl] at hx
      exact h2 x (List.getElem?_mem hx)
    · by_cases hje : j = st.unique_moments.length
      · exact absurd hje hj
      · rw [List.getElem?_eq_none (by simp; omega)] at hx
        cases hx
  · intro p hp hpk
    rcases List.mem_append.mp hp with hp | hp
    · have := h3 p hp
      omega
    · simp only [List.mem_singleton] at hp
      subst hp
      exact absurd rfl hpk
  · intro p hp
    rcases List.mem_append.mp hp with hp | hp
    · have := h3 p hp
      simp only [List.length_append, List.length_singleton]
      omega
    · simp only [List.mem_singleton] at hp
      subst hp
      simp [List.length_append]

theorem KeyInv_dup {k : String} {i : Nat} {kept m : Moment} {st : DedupState}
    (hm : quote_key m = k) (h : KeyInv k i kept st) :
    KeyInv k i (if m.is_in_overlap_region then kept else m)
      (remove_exact_duplicates_step st m) := by
  obtain ⟨h1, h2, h3, h4, h5⟩ := h
  obtain ⟨hilen, -⟩ := List.getElem?_eq_some.mp h2
  unfold remove_exact_duplicates_step
  dsimp only
  simp only [hm, h1]
  by_cases hov : m.is_in_overlap_region
  · simp only [if_pos hov]
    exact ⟨h1, h2, h3, h4, h5⟩
  · simp only [if_neg hov]
    refine ⟨h1, ?_, ?_, h4, ?_⟩
    · rw [List.getElem?_set_self hilen]
    · intro j x hj hx
      rw [List.getElem?_set_ne (Ne.symm hj)] at hx
      exact h3 j x hj hx
    · intro p hp
      have := h5 p hp
      simpa [List.length_set] using this

theorem NoKey_foldl {k : String} :
    ∀ (ms : List Moment) (st : DedupState), (∀ m ∈ ms, quote_key m ≠ k) → NoKey k st →
      NoKey k (ms.foldl remove_exact_duplicates_step st)
  | [], _, _, h => h
  | m :: t, st, hms, h => by
    rw [List.foldl_cons]
    exact NoKey_foldl t _ (fun x hx => hms x (List.mem_cons_of_mem m hx))
      (NoKey_step (hms m (List.mem_cons_self m t)) h)

theorem KeyInv_foldl {k : String} {i : Nat} {kept : Moment} :
    ∀ (ms : List Moment) (st : DedupState), (∀ m ∈ ms, quote_key m ≠ k) → KeyInv k i kept st →
      KeyInv k i kept (ms.foldl remove_exact_duplicates_step st)
  | [], _, _, h => h
  | m :: t, st, hms, h => by
    rw [List.foldl_cons]
    exact KeyInv_foldl t _ (fun x hx => hms x (List.mem_cons_of_mem m hx))
      (KeyInv_step_other (hms m (List.mem_cons_self m t)) h)

/-- Processing a list that holds exactly two moments of quote key k — a
first and then b, with every other element of a different key — leaves the
key-k position holding a when b is in an overlap region and b otherwise. -/
theorem dedup_shape (k : String) (xs ys zs : List Moment) (a b : Moment)
    (hka : quote_key a = k) (hkb : quote_key b = k)
    (hxs : ∀ m ∈ xs, quote_key m ≠ k) (hys : ∀ m ∈ ys, quote_key m ≠ k)
    (hzs : ∀ m ∈ zs, quote_key m ≠ k) :
    ∃ i, KeyInv k i (if b.is_in_overlap_region then a else b)
      (remove_exact_duplicates (xs ++ a :: (ys ++ b :: zs))) := by
  unfold remove_exact_duplicates
  rw [List.foldl_append, List.foldl_cons, List.foldl_append, List.foldl_cons]
  have h0 : NoKey k (⟨[], [], 0⟩ : DedupState) := ⟨rfl, by simp, by simp⟩
  have h1 := NoKey_foldl xs _ hxs h0
  have h2 := KeyInv_insert hka h1
  have h3 := KeyInv_foldl ys _ hys h2
  have h4 := KeyInv_dup hkb h3
  exact ⟨_, KeyInv_foldl zs _ hzs h4⟩

/-- A list whose position i holds an element satisfying p while every
other in-range position fails p filters to that single element. -/
theorem filter_eq_single_of_getElem? {α : Type} {p : α → Bool} :
    ∀ (l : List α) (i : Nat) (a : α), l[i]? = some a → p a = true →
      (∀ j x, j ≠ i → l[j]? = some x → p x = false) → l.filter p = [a]
  | [], i, a, h, _, _ => by simp at h
  | c :: t, 0, a, h, hpa, hothers => by
    rw [List.getElem?_cons_zero] at h
    cases h
    rw [List.filter_cons, if_pos (by simp [hpa])]
    have ht : t.filter p = [] := by
      rw [List.filter_eq_nil_iff]
      intro x hx
      obtain ⟨j, hj⟩ := List.getElem?_of_mem hx
      have := hothers (j + 1) x (by omega) (by simpa using hj)
      simp [this]
    rw [ht]
  | c :: t, i + 1, a, h, hpa, hothers => by
    rw [List.getElem?_cons_succ] at h
    have hc : p c = false := hothers 0 c (by omega) List.getElem?_cons_zero
    rw [List.filter_cons, if_neg (by simp [hc])]
    exact filter_eq_single_of_getElem? t i a h hpa
      fun j x hj hx => hothers (j + 1) x (by omega) (by simpa using hx)

/-- The key-k slice of the step-1 output for a list holding the two key-k
moments a then b among other-key moments: a single element, a when b is in
an overlap region and b otherwise. -/
theorem dedup_filter (k : String) (xs ys zs : List Moment) (a b : Moment)
    (hka : quote_key a = k) (hkb : quote_key b = k)
    (hxs : ∀ m ∈ xs, quote_key m ≠ k) (hys : ∀ m ∈ ys, quote_key m ≠ k)
    (hzs : ∀ m ∈ zs, quote_key m ≠ k) :
    (remove_exact_duplicates (xs ++ a :: (ys ++ b :: zs))).unique_moments.filter
        (fun x => decide (quote_key x = k)) =
      [if b.is_in_overlap_region then a else b] ∧
    (if b.is_in_overlap_region then a else b) ∈
      (remove_exact_duplicates (xs ++ a :: (ys ++ b :: zs))).unique_moments := by
  obtain ⟨i, h1, h2, h3, -, -⟩ := dedup_shape k xs ys zs a b hka hkb hxs hys hzs
  have hkeptkey : quote_key (if b.is_in_overlap_region then a else b) = k := by
    by_cases hov : b.is_in_overlap_region
    · simp [hov, hka]
    · simp [hov, hkb]
  refine ⟨?_, List.getElem?_mem h2⟩
  exact filter_eq_single_of_getElem? _ i _ h2 (by simp [hkeptkey])
    fun j x hj hx => by simp [h3 j x hj hx]

/-! ## C3: overlap-duplicate removal keeps the non-overlap instance -/

/-- C3: for an input list holding exactly two moments with the same
normalised quote key, one inside an overlap region and one outside (in
either order), step 1 keeps exactly one of them — the non-overlap one —
and drops the overlap one. -/
theorem overlap_dedup_keeps_non_overlap (xs ys zs : List Moment) (a b : Moment)
    (hk : quote_key a = quote_key b)
    (hxs : ∀ m ∈ xs, quote_key m ≠ quote_key b)
    (hys : ∀ m ∈ ys, quote_key m ≠ quote_key b)
    (hzs : ∀ m ∈ zs, quote_key m ≠ quote_key b)
    (hflags : (a.is_in_overlap_region = true ∧ b.is_in_overlap_region = false) ∨
      (a.is_in_overlap_region = false ∧ b.is_in_overlap_region = true)) :
    (remove_exact_duplicates (xs ++ a :: (ys ++ b :: zs))).unique_moments.filter
        (fun x => decide (quote_key x = quote_key b)) =
      [if a.is_in_overlap_region then b else a] ∧
    (if a.is_in_overlap_region then b else a) ∈
      (remove_exact_duplicates (xs ++ a :: (ys ++ b :: zs))).unique_moments ∧
    (if a.is_in_overlap_region then a else b) ∉
      (remove_exact_duplicates (xs ++ a :: (ys ++ b :: zs))).unique_moments := by
  obtain ⟨hfil, hmem⟩ := dedup_filter (quote_key b) xs ys zs a b hk rfl hxs hys hzs
  have hne : a ≠ b := by
    intro he
    rcases hflags with ⟨ha, hb⟩ | ⟨ha, hb⟩ <;> rw [he, hb] at ha <;> cases ha
  have hkept : (if b.is_in_overlap_region then a else b) =
      (if a.is_in_overlap_region then b else a) := by
    rcases hflags with ⟨ha, hb⟩ | ⟨ha, hb⟩ <;> simp [ha, hb]
  rw [hkept] at hfil hmem
  refine ⟨hfil, hmem, ?_⟩
  intro hbad
  have hdropkey : quote_key (if a.is_in_overlap_region then a else b) = quote_key b := by
    by_cases hov : a.is_in_overlap_region
    · simp [hov, hk]
    · simp [hov]
  have : (if a.is_in_overlap_region then a else b) ∈
      (remove_exact_duplicates (xs ++ a :: (ys ++ b :: zs))).unique_moments.filter
        (fun x => decide (quote_key x = quote_key b)) := by
    rw [List.mem_filter]
    exact ⟨hbad, by simp [hdropkey]⟩
  rw [hfil, List.mem_singleton] at this
  rcases hflags with ⟨ha, hb⟩ | ⟨ha, hb⟩
  · rw [if_pos ha, if_pos ha] at this
    exact hne this
  · rw [if_neg (by rw [ha]; exact Bool.false_ne_true),
      if_neg (by rw [ha]; exact Bool.false_ne_true)] at this
    exact hne this.symm

theorem overlap_dedup_keeps_non_overlap_witness :
    (remove_exact_duplicates ([momX] ++ momOV :: ([] ++ momNF :: []))).unique_moments.filter
        (fun x => decide (quote_key x = quote_key momNF)) =
      [if momOV.is_in_overlap_region then momNF else momOV] ∧
    (if momOV.is_in_overlap_region then momNF else momOV) ∈
      (remove_exact_duplicates ([momX] ++ momOV :: ([] ++ momNF :: []))).unique_moments ∧
    (if momOV.is_in_overlap_region then momOV else momNF) ∉
      (remove_exact_duplicates ([momX] ++ momOV :: ([] ++ momNF :: []))).unique_moments :=
  overlap_dedup_keeps_non_overlap [momX] [] [] momOV momNF (by decide) (by decide)
    (by decide) (by decide) (by decide)

/-! ## C4: tie behaviour of overlap-duplicate removal -/

/-- C4 (counterexample): two non-overlap candidates share the quote key;
step 1 keeps the second-seen one, not the first-seen one the claim
requires. -/
theorem overlap_dedup_tie_keeps_last_not_first :
    momF1.is_in_overlap_region = false ∧ momF2.is_in_overlap_region = false ∧
    quote_key momF1 = quote_key momF2 ∧ momF1 ≠ momF2 ∧
    (remove_exact_duplicates [momF1, momF2]).unique_moments = [momF2] := by decide

/-- C4 (amended): on duplicate quote keys, when both candidates are in an
overlap region the first-seen one is kept; when both are non-overlap, the
later one overwrites the earlier at its position, so the last-seen one is
kept. -/
theorem overlap_dedup_tie_keeps (xs ys zs : List Moment) (a b : Moment)
    (hk : quote_key a = quote_key b)
    (hxs : ∀ m ∈ xs, quote_key m ≠ quote_key b)
    (hys : ∀ m ∈ ys, quote_key m ≠ quote_key b)
    (hzs : ∀ m ∈ zs, quote_key m ≠ quote_key b) :
    (a.is_in_overlap_region = true → b.is_in_overlap_region = true →
      (remove_exact_duplicates (xs ++ a :: (ys ++ b :: zs))).unique_moments.filter
        (fun x => decide (quote_key x = quote_key b)) = [a]) ∧
    (a.is_in_overlap_region = false → b.is_in_overlap_region = false →
      (remove_exact_duplicates (xs ++ a :: (ys ++ b :: zs))).unique_moments.filter
        (fun x => decide (quote_key x = quote_key b)) = [b]) := by
  obtain ⟨hfil, -⟩ := dedup_filter (quote_key b) xs ys zs a b hk rfl hxs hys hzs
  constructor
  · intro _ hb
    rw [hfil, if_pos hb]
  · intro _ hb
    rw [hfil, if_neg (by rw [hb]; exact Bool.false_ne_true)]

theorem overlap_dedup_tie_keeps_witness :
    (remove_exact_duplicates ([] ++ momT1 :: ([] ++ momT2 :: []))).unique_moments.filter
        (fun x => decide (quote_key x = quote_key momT2)) = [momT1] ∧
    (remove_exact_duplicates ([] ++ momF1 :: ([] ++ momF2 :: []))).unique_moments.filter
        (fun x => decide (quote_key x = quote_key momF2)) = [momF2] :=
  ⟨(overlap_dedup_tie_keeps [] [] [] momT1 momT2 (by decide) (by decide) (by decide)
      (by decide)).1 (by decide) (by decide),
   (overlap_dedup_tie_keeps [] [] [] momF1 momF2 (by decide) (by decide) (by decide)
      (by decide)).2 (by decide) (by decide)⟩

/-! ## C6: timestamp locator fallback -/

/-- C6: on capsW the quote with no matching window falls back to the span
from the chunk start to sixty seconds past it — and that output is equal
to the output for a successfully matched quote, so the fallback carries no
unresolved marker distinguishable from a matched span (the function's own
docstring promises a (None, None) sentinel that is never returned). -/
theorem extract_exact_timestamp_fallback_unmarked :
    findWindow (normalizeWs (pyLower "zzz")) capsW = none ∧
    extract_exact_timestamp "zzz" capsW 0 =
      (format_timestamp 0, format_timestamp (0 + 60)) ∧
    findWindow (normalizeWs (pyLower "hello world")) capsW = some (0, 60) ∧
    extract_exact_timestamp "hello world" capsW 0 = ("00:00:00", "00:01:00") ∧
    extract_exact_timestamp "zzz" capsW 0 = extract_exact_timestamp "hello world" capsW 0 := by
  decide

/-! ## C10: semantic deduplication on embedding failure -/

/-- C10: when the embedding call fails after its retries (outcome none),
semantic_deduplication returns the input moment list unchanged paired with
an empty decision list — it degrades to the identity with no record in the
decision log and no error. -/
theorem semantic_dedup_embedding_failure_identity (sim : List ℚ → List ℚ → ℚ)
    (threshold : ℚ) (moments : List Moment) :
    semantic_deduplication sim threshold none moments = (moments, []) := by
  unfold semantic_deduplication
  by_cases h : moments = []
  · subst h
    simp
  · rw [if_neg h]

end Capless
